import Mathlib

/-!
Shallow embedding of the core of the phyp driver (src/src/phyp/phyp_driver.c):
the correspondence (uuid) table, its binary persistence format, the command
execution wrappers, and the file transfer loops.  Each definition mirrors one
C function or loop of the source; theorems settle the specified properties.
-/

set_option autoImplicit false

namespace Phyp

/-- VIR_UUID_BUFLEN: a uuid is 16 bytes. -/
def VIR_UUID_BUFLEN : Nat := 16

/-- One entry of the correspondence table (struct lpar: an int id and a
16-byte uuid buffer).  Bytes are modelled as naturals. -/
structure lpar where
  id : Int
  uuid : List Nat
deriving DecidableEq, Repr

/-- The all-zero uuid buffer produced by memset(uuid, 0, VIR_UUID_BUFLEN). -/
def zeroUuid : List Nat := List.replicate VIR_UUID_BUFLEN 0

/-- The in-memory table: uuid_table->lpars as an ordered list; nlpars is its
length. -/
abbrev uuidTable := List lpar

/-- phypGetLparUUID: linear scan over the table, the first entry whose id
equals lpar_id wins and its uuid is returned; none models the -1 (not found)
return. -/
def phypGetLparUUID (tbl : uuidTable) (lpar_id : Int) : Option (List Nat) :=
  (tbl.find? (fun e => e.id == lpar_id)).map lpar.uuid

/-- phypUUIDTable_AddLpar: nlpars is incremented and the new entry, with the
given id and uuid, is placed at the last index (an append). -/
def phypUUIDTable_AddLpar (tbl : uuidTable) (uuid : List Nat) (id : Int) :
    uuidTable :=
  tbl ++ [⟨id, uuid⟩]

/-- The effect of one iteration of the removal scan at index i: the entry at
index i is read; if the index is out of bounds the boolean flag records that
the scan touched memory past the table (the C code reads lpars[i]->id there);
otherwise, if the entry's id matches, the entry is tombstoned in place. -/
def remScanStep (tbl : uuidTable) (id : Int) (i : Nat) : uuidTable × Bool :=
  match tbl[i]? with
  | none => (tbl, true)
  | some e => (if e.id = id then tbl.set i ⟨-1, zeroUuid⟩ else tbl, false)

/-- The removal scan over a list of indices, threading the table through each
iteration and recording whether any iteration accessed an out-of-bounds
index. -/
def remScanAux (id : Int) : uuidTable → List Nat → uuidTable × Bool
  | tbl, [] => (tbl, false)
  | tbl, i :: is =>
    let p := remScanStep tbl id i
    let q := remScanAux id p.1 is
    (q.1, p.2 || q.2)

/-- phypUUIDTable_RemLpar's scan: for (i = 0; i <= nlpars; i++), i.e. the
indices 0, 1, ..., nlpars inclusive — one past the last valid index.  The
result is the table after all in-place tombstoning writes, paired with a flag
that is true when some iteration read an out-of-bounds index. -/
def phypUUIDTable_RemLpar (tbl : uuidTable) (id : Int) : uuidTable × Bool :=
  remScanAux id tbl (List.range (tbl.length + 1))

/-- Tombstoning an entry when its id matches: id set to -1, uuid zeroed. -/
def tombstoneIf (id : Int) (e : lpar) : lpar :=
  if e.id = id then ⟨-1, zeroUuid⟩ else e

theorem tombstoneIf_idem (id : Int) (e : lpar) :
    tombstoneIf id (tombstoneIf id e) = tombstoneIf id e := by
  unfold tombstoneIf
  by_cases h : e.id = id <;> simp [h]

theorem remScanStep_getElem? (tbl : uuidTable) (id : Int) (i k : Nat) :
    ((remScanStep tbl id i).1)[k]? =
      if k = i then (tbl[k]?).map (tombstoneIf id) else tbl[k]? := by
  unfold remScanStep
  match h : tbl[i]? with
  | none =>
    by_cases hk : k = i
    · subst hk; simp [h]
    · simp [hk]
  | some e =>
    by_cases he : e.id = id
    · by_cases hk : k = i
      · subst hk
        have hi : k < tbl.length := by
          by_contra hlen
          rw [List.getElem?_eq_none (by omega)] at h
          exact Option.noConfusion h
        simp [he, h, List.getElem?_set_self' , tombstoneIf, hi]
      · simp [he, hk, List.getElem?_set_ne (fun hik => hk hik.symm)]
    · by_cases hk : k = i
      · subst hk
        simp [he, h, tombstoneIf]
      · simp [he, hk]

theorem remScanStep_length (tbl : uuidTable) (id : Int) (i : Nat) :
    (remScanStep tbl id i).1.length = tbl.length := by
  unfold remScanStep
  match h : tbl[i]? with
  | none => simp
  | some e =>
    by_cases he : e.id = id <;> simp [he]

theorem remScanAux_length (id : Int) (is : List Nat) :
    ∀ tbl : uuidTable, (remScanAux id tbl is).1.length = tbl.length := by
  induction is with
  | nil => intro tbl; rfl
  | cons i is ih =>
    intro tbl
    simp only [remScanAux]
    rw [ih]
    exact remScanStep_length tbl id i

theorem remScanAux_getElem? (id : Int) (is : List Nat) :
    ∀ (tbl : uuidTable) (k : Nat),
      ((remScanAux id tbl is).1)[k]? =
        if k ∈ is then (tbl[k]?).map (tombstoneIf id) else tbl[k]? := by
  induction is with
  | nil => intro tbl k; simp [remScanAux]
  | cons i is ih =>
    intro tbl k
    simp only [remScanAux]
    rw [ih]
    rw [remScanStep_getElem?]
    by_cases hk : k = i
    · subst hk
      by_cases hmem : k ∈ is
      · simp [hmem, List.mem_cons]
        cases tbl[k]? with
        | none => rfl
        | some e => simp [tombstoneIf_idem]
      · simp [hmem, List.mem_cons]
    · by_cases hmem : k ∈ is
      · simp [hmem, hk, List.mem_cons]
      · simp [hmem, hk, List.mem_cons]

theorem remScanAux_oob (id : Int) (is : List Nat) :
    ∀ tbl : uuidTable, (∃ i ∈ is, tbl.length ≤ i) →
      (remScanAux id tbl is).2 = true := by
  induction is with
  | nil => intro tbl h; simp at h
  | cons i is ih =>
    intro tbl h
    simp only [remScanAux, Bool.or_eq_true]
    rcases h with ⟨j, hj, hlen⟩
    rcases List.mem_cons.mp hj with hji | hji
    · subst hji
      left
      unfold remScanStep
      rw [List.getElem?_eq_none hlen]
    · right
      apply ih
      exact ⟨j, hji, by rw [remScanStep_length]; exact hlen⟩

/-- The table after the removal scan equals the pointwise tombstoning of every
matching entry. -/
theorem phypUUIDTable_RemLpar_fst (tbl : uuidTable) (id : Int) :
    (phypUUIDTable_RemLpar tbl id).1 = tbl.map (tombstoneIf id) := by
  apply List.ext_getElem?
  intro k
  unfold phypUUIDTable_RemLpar
  rw [remScanAux_getElem?]
  rw [List.getElem?_map]
  by_cases hk : k ∈ List.range (tbl.length + 1)
  · simp [hk]
  · simp only [hk, if_false]
    have : tbl.length ≤ k := by
      rw [List.mem_range] at hk; omega
    rw [List.getElem?_eq_none this]
    rfl

/-- The removal scan always reads one index past the end of the table. -/
theorem phypUUIDTable_RemLpar_snd (tbl : uuidTable) (id : Int) :
    (phypUUIDTable_RemLpar tbl id).2 = true := by
  apply remScanAux_oob
  exact ⟨tbl.length, List.mem_range.mpr (by omega), le_refl _⟩

/-! Command execution: phypExec's exit-code logic and the phypExecBuffer
newline stripping. -/

/-- The exit-code computation at the end of phypExec: exitcode starts at 127;
the channel close loop leaves a final close result rc; only when rc = 0 is the
channel's reported exit status taken, otherwise exitcode stays 127. -/
def phypExec_exitcode (closeResult : Int) (remoteStatus : Int) : Int :=
  if closeResult = 0 then remoteStatus else 127

/-- phypExecBuffer's post-processing of phypExec's result: when the returned
buffer is non-null, the exit status is 0 and strip_newline was requested, the
first newline is overwritten with a NUL terminator, truncating the string
there; otherwise the buffer is returned unmodified. -/
def phypExecBuffer (ret : Option (List Char)) (exit_status : Int)
    (strip_newline : Bool) : Option (List Char) :=
  match ret with
  | none => none
  | some s =>
    if exit_status = 0 ∧ strip_newline then
      some (s.takeWhile (fun c => c ≠ '\n'))
    else
      some s

/-! Binary persistence: phypUUIDTable_WriteFile and phypUUIDTable_ReadFile.
Each record is the 4 bytes of the int id followed by the 16 uuid bytes. -/

/-- The 4 bytes written for an int id (little-endian two's complement, the
byte image of a 32-bit int). -/
def int32ToBytes (x : Int) : List Nat :=
  let n : Nat := (x % 4294967296).toNat
  [n % 256, n / 256 % 256, n / 65536 % 256, n / 16777216 % 256]

/-- Reassembling an int from the 4 bytes read back from the file (the inverse
byte image, interpreting the most significant bit as the sign). -/
def int32OfBytes (b0 b1 b2 b3 : Nat) : Int :=
  let n : Nat := b0 + 256 * b1 + 65536 * b2 + 16777216 * b3
  if n < 2147483648 then (n : Int) else (n : Int) - 4294967296

/-- phypUUIDTable_WriteFile: for each entry in order, the id bytes then the
uuid bytes are appended to the file; no header and no length field. -/
def phypUUIDTable_WriteFile : uuidTable → List Nat
  | [] => []
  | e :: rest => int32ToBytes e.id ++ e.uuid ++ phypUUIDTable_WriteFile rest

/-- One record read of phypUUIDTable_ReadFile: 4 bytes into an int (a short
read fails), then VIR_UUID_BUFLEN bytes into the uuid buffer (a short read
fails); the rest of the stream is returned for the next record. -/
def readLparRecord (bs : List Nat) : Option (lpar × List Nat) :=
  match bs with
  | b0 :: b1 :: b2 :: b3 :: rest =>
    if VIR_UUID_BUFLEN ≤ rest.length then
      some (⟨int32OfBytes b0 b1 b2 b3, rest.take VIR_UUID_BUFLEN⟩,
            rest.drop VIR_UUID_BUFLEN)
    else none
  | _ => none

/-- phypUUIDTable_ReadFile: nlpars records are read sequentially from the
byte stream; the count is supplied out-of-band (uuid_table->nlpars). -/
def phypUUIDTable_ReadFile (nlpars : Nat) (bs : List Nat) :
    Option uuidTable :=
  match nlpars with
  | 0 => some []
  | n + 1 =>
    match readLparRecord bs with
    | some (e, rest) => (phypUUIDTable_ReadFile n rest).map (fun l => e :: l)
    | none => none

theorem int32OfBytes_ofNat (n : Nat) :
    int32OfBytes (n % 256) (n / 256 % 256) (n / 65536 % 256)
        (n / 16777216 % 256) =
      if n % 4294967296 < 2147483648 then ((n % 4294967296 : Nat) : Int)
      else ((n % 4294967296 : Nat) : Int) - 4294967296 := by
  simp only [int32OfBytes]
  have hre : n % 256 + 256 * (n / 256 % 256) + 65536 * (n / 65536 % 256) +
      16777216 * (n / 16777216 % 256) = n % 4294967296 := by omega
  rw [hre]

theorem int32_roundtrip (x : Int) (h1 : -2147483648 ≤ x)
    (h2 : x < 2147483648) :
    (match int32ToBytes x with
     | [b0, b1, b2, b3] => int32OfBytes b0 b1 b2 b3
     | _ => 0) = x := by
  simp only [int32ToBytes]
  rw [int32OfBytes_ofNat]
  split <;> omega

theorem readLparRecord_of_write (e : lpar) (rest : List Nat)
    (hu : e.uuid.length = VIR_UUID_BUFLEN) (hlo : -2147483648 ≤ e.id)
    (hhi : e.id < 2147483648) :
    readLparRecord (int32ToBytes e.id ++ e.uuid ++ rest) = some (e, rest) := by
  have hx := int32_roundtrip e.id hlo hhi
  simp only [int32ToBytes] at hx ⊢
  simp only [readLparRecord, List.cons_append, List.nil_append]
  have hlen : VIR_UUID_BUFLEN ≤ (e.uuid ++ rest).length := by
    simp [hu]
  rw [if_pos hlen]
  rw [← hu, List.take_left, List.drop_left]
  simp only [hx]

/-- An entry is representable in the file: the id fits a 32-bit int and the
uuid buffer has its fixed size. -/
def lparWF (e : lpar) : Prop :=
  -2147483648 ≤ e.id ∧ e.id < 2147483648 ∧ e.uuid.length = VIR_UUID_BUFLEN

instance (e : lpar) : Decidable (lparWF e) := by
  unfold lparWF
  infer_instance

theorem writeFile_length (tbl : uuidTable)
    (h : ∀ e ∈ tbl, e.uuid.length = VIR_UUID_BUFLEN) :
    (phypUUIDTable_WriteFile tbl).length = 20 * tbl.length := by
  induction tbl with
  | nil => rfl
  | cons e rest ih =>
    simp only [phypUUIDTable_WriteFile, List.length_append, List.length_cons]
    rw [ih (fun x hx => h x (List.mem_cons_of_mem e hx))]
    have he : e.uuid.length = VIR_UUID_BUFLEN := h e (List.mem_cons_self e rest)
    simp [int32ToBytes, he, VIR_UUID_BUFLEN]
    ring

theorem readFile_writeFile (tbl : uuidTable) (h : ∀ e ∈ tbl, lparWF e) :
    phypUUIDTable_ReadFile tbl.length (phypUUIDTable_WriteFile tbl) =
      some tbl := by
  induction tbl with
  | nil => rfl
  | cons e rest ih =>
    have he := h e (List.mem_cons_self e rest)
    simp only [List.length_cons, phypUUIDTable_WriteFile]
    rw [phypUUIDTable_ReadFile]
    rw [readLparRecord_of_write e _ he.2.2 he.1 he.2.1]
    show Option.map (fun l => e :: l)
        (phypUUIDTable_ReadFile rest.length (phypUUIDTable_WriteFile rest)) =
      some (e :: rest)
    rw [ih (fun x hx => h x (List.mem_cons_of_mem e hx))]
    rfl

/-! File transfer: phypUUIDTable_Pull, phypUUIDTable_Init's branch on the
pull result, and phypUUIDTable_Push's inner send loop. -/

/-- The environment a run of phypUUIDTable_Pull observes: the outcome of the
scp receive channel open (none models a persistent non-would-block failure,
some size models eventual success with the remote file size), whether the
local file creation succeeds, whether every readiness wait during the read
loop succeeds, and whether the final local close succeeds. -/
structure PullEnv where
  scpRecvResult : Option Nat
  creatOk : Bool
  transferOk : Bool
  closeOk : Bool
deriving DecidableEq, Repr

/-- phypUUIDTable_Pull's result: every failure path reaches cleanup with ret
still -1 — a hard failure opening the channel, a failed creat of the local
file, a hard readiness-wait failure during the read loop, and a failed final
close all return the same -1; only the complete transfer returns 0. -/
def phypUUIDTable_Pull (env : PullEnv) : Int :=
  match env.scpRecvResult with
  | none => -1
  | some _ =>
    if !env.creatOk then -1
    else if !env.transferOk then -1
    else if !env.closeOk then -1
    else 0

/-- The two continuation paths of phypUUIDTable_Init after the pull. -/
inductive InitPath where
  | createFresh : InitPath
  | loadExisting : InitPath
deriving DecidableEq, Repr

/-- phypUUIDTable_Init's branch: if (phypUUIDTable_Pull(conn) == -1) a fresh
table is generated, written and pushed; otherwise the pulled file is loaded
with phypUUIDTable_ReadFile. -/
def phypUUIDTable_Init_path (pullResult : Int) : InitPath :=
  if pullResult = -1 then InitPath.createFresh else InitPath.loadExisting

/-! The channel-open retry loop of phypExec (while channel == NULL and the
session error is EAGAIN: waitsocket, retry). -/

/-- One attempt to open the channel: it yields a channel, or NULL with the
would-block error, or NULL with a hard error. -/
inductive OpenAttempt where
  | ok : OpenAttempt
  | eagain : OpenAttempt
  | fail : OpenAttempt
deriving DecidableEq, Repr

/-- The open loop of phypExec, driven by an oracle giving the outcome of the
n-th open attempt and an oracle giving the outcome of the n-th readiness wait
(true: ready or interrupted, false: hard poll failure).  Fuel bounds the
number of iterations so the function is total; the result is the number of
readiness waits performed when the loop exits with an open channel, and none
on the error path or when fuel runs out. -/
def phypExec_openLoop (attempt : Nat → OpenAttempt) (wait : Nat → Bool) :
    Nat → Nat → Nat → Option Nat
  | 0, _, _ => none
  | fuel + 1, i, waits =>
    match attempt i with
    | OpenAttempt.ok => some waits
    | OpenAttempt.fail => none
    | OpenAttempt.eagain =>
      if wait waits then phypExec_openLoop attempt wait fuel (i + 1) (waits + 1)
      else none

theorem phypExec_openLoop_count (attempt : Nat → OpenAttempt)
    (wait : Nat → Bool) (K : Nat)
    (hK : ∀ i, i < K → attempt i = OpenAttempt.eagain)
    (hS : attempt K = OpenAttempt.ok) (hw : ∀ i, wait i = true) :
    ∀ fuel i waits, i ≤ K → K - i < fuel →
      phypExec_openLoop attempt wait fuel i waits = some (waits + (K - i)) := by
  intro fuel
  induction fuel with
  | zero => intro i waits _ h; omega
  | succ fuel ih =>
    intro i waits hi hf
    by_cases hiK : i = K
    · subst hiK
      simp [phypExec_openLoop, hS]
    · have hlt : i < K := by omega
      simp only [phypExec_openLoop, hK i hlt, hw waits, if_true]
      rw [ih (i + 1) (waits + 1) (by omega) (by omega)]
      congr 1
      omega

/-! The block-send inner loop of phypUUIDTable_Push.  Each iteration calls
libssh2_channel_write(channel, ptr, nread); the oracle list gives the result
rc of each successive call.  On EAGAIN the loop condition is re-evaluated
with rc negative, so the loop exits; on rc > 0 the code records the bytes
accepted from the current pointer, then advances the pointer by the
accumulated sent count and subtracts that same count from nread (size_t
arithmetic); it iterates while rc > 0 and sent < nread. -/

/-- LIBSSH2_ERROR_EAGAIN. -/
def LIBSSH2_ERROR_EAGAIN : Int := -37

/-- size_t subtraction, modulo 2^64. -/
def subSizeT (a b : Nat) : Nat :=
  (a + (18446744073709551616 - b % 18446744073709551616)) %
    18446744073709551616

/-- The inner send loop.  Arguments: the oracle of write results, the current
pointer offset into the block, the accumulated sent count, the current nread
value; the accumulator collects, for each successful write, the block offset
it started at and the byte count it covered.  Returns the final sent count
and the list of transmitted chunks. -/
def pushInnerLoop : List Int → Nat → Nat → Nat → List (Nat × Nat) →
    Nat × List (Nat × Nat)
  | [], _, sent, _, acc => (sent, acc.reverse)
  | rc :: rest, ptr, sent, nread, acc =>
    if rc = LIBSSH2_ERROR_EAGAIN then
      (sent, acc.reverse)
    else if 0 < rc then
      let r := rc.toNat
      let sent' := sent + r
      let ptr' := ptr + sent'
      let nread' := subSizeT nread sent'
      if sent' < nread' then
        pushInnerLoop rest ptr' sent' nread' ((ptr, r) :: acc)
      else
        (sent', ((ptr, r) :: acc).reverse)
    else
      (sent, acc.reverse)

/-! The URI path filter: contains_specialcharacters and the check made by
phypConnectOpen before the SSH session is opened. -/

/-- The set of characters rejected in a URI path (SPECIALCHARACTER_CASES). -/
def specialChars : List Char :=
  ['&', ';', '\x60', '@', '\"', '|', '*', '?', '~', '<', '>', '^',
   '(', ')', '[', ']', '\x7b', '\x7d', '$', '%', '#', '\\', '\n', '\r', '\t']

/-- contains_specialcharacters: an empty string is accepted; otherwise every
character is inspected and any special character causes rejection. -/
def contains_specialcharacters (src : List Char) : Bool :=
  if src.length = 0 then false
  else src.any (fun c => specialChars.contains c)

/-- phypConnectOpen's handling of the URI path, up to the point where the SSH
session would be opened: with a path present, a special character in it makes
the open fail before openSSHSession is called; otherwise control reaches the
openSSHSession call. -/
inductive OpenOutcome where
  | invalidPath : OpenOutcome
  | sshSessionAttempt : OpenOutcome
deriving DecidableEq, Repr

def phypConnectOpen_pathCheck (path : Option (List Char)) : OpenOutcome :=
  match path with
  | none => OpenOutcome.sshSessionAttempt
  | some p =>
    if contains_specialcharacters p then OpenOutcome.invalidPath
    else OpenOutcome.sshSessionAttempt

theorem find?_append_of_none {p : lpar → Bool} (l1 l2 : List lpar)
    (h : l1.find? p = none) : (l1 ++ l2).find? p = l2.find? p := by
  induction l1 with
  | nil => rfl
  | cons x xs ih =>
    match hp : p x with
    | true =>
      rw [List.find?_cons_of_pos _ hp] at h
      exact Option.noConfusion h
    | false =>
      rw [List.find?_cons_of_neg _ (by simp [hp])] at h
      rw [List.cons_append, List.find?_cons_of_neg _ (by simp [hp])]
      exact ih h

/-! Claim theorems. -/

/-- Claim C1.  The removal scan of phypUUIDTable_RemLpar tombstones every
matching entry (the first component below), but, contrary to the claim, its
loop bound i <= nlpars makes it read the entry one past the valid range on
every call: the out-of-bounds branch is always reached (the second component
is always true), for every table and every id. -/
theorem remLpar_tombstones_but_reads_past_end (tbl : uuidTable) (id : Int) :
    phypUUIDTable_RemLpar tbl id = (tbl.map (tombstoneIf id), true) := by
  have h1 := phypUUIDTable_RemLpar_fst tbl id
  have h2 := phypUUIDTable_RemLpar_snd tbl id
  cases hp : phypUUIDTable_RemLpar tbl id with
  | mk a b =>
    rw [hp] at h1 h2
    simp only at h1 h2
    rw [h1, h2]

/-- Claim C2, counterexample.  Adding uuid u2 under an id that is already
live in the table and then looking that id up returns the previously stored
uuid, not the just-added one: lookup is first-match and add appends. -/
theorem addLpar_lookup_counterexample :
    phypGetLparUUID
        (phypUUIDTable_AddLpar [⟨3, List.replicate 16 1⟩]
          (List.replicate 16 2) 3) 3 ≠
      some (List.replicate 16 2) := by
  decide

/-- Claim C2, amended.  For every non-tombstone id: when no entry of the
table already carries the id, add followed by lookup returns the just-added
uuid; and remove followed by lookup returns not-found for every table state,
whether or not entries carrying the id are present. -/
theorem addLpar_remLpar_lookup (tbl : uuidTable) (uuid : List Nat) (id : Int)
    (h1 : id ≠ -1) :
    ((∀ e ∈ tbl, e.id ≠ id) →
        phypGetLparUUID (phypUUIDTable_AddLpar tbl uuid id) id = some uuid) ∧
      phypGetLparUUID (phypUUIDTable_RemLpar tbl id).1 id = none := by
  constructor
  · intro h2
    unfold phypGetLparUUID phypUUIDTable_AddLpar
    have hn : tbl.find? (fun e => e.id == id) = none := by
      rw [List.find?_eq_none]
      intro x hx
      simp only [beq_iff_eq]
      exact h2 x hx
    rw [find?_append_of_none _ _ hn]
    simp [List.find?_cons]
  · rw [phypUUIDTable_RemLpar_fst]
    unfold phypGetLparUUID
    have hn : (tbl.map (tombstoneIf id)).find? (fun e => e.id == id) =
        none := by
      rw [List.find?_eq_none]
      intro x hx
      rcases List.mem_map.mp hx with ⟨e, _, he⟩
      subst he
      unfold tombstoneIf
      by_cases hid : e.id = id
      · rw [if_pos hid]
        simp only [beq_iff_eq]
        intro hcon
        exact h1 hcon.symm
      · rw [if_neg hid]
        simp only [beq_iff_eq]
        exact hid
    rw [hn]
    rfl

/-- Claim C2, witness: the add part on a table free of id 3, and the remove
part on a table that does hold an entry with id 3, so a real removal is
exercised. -/
theorem addLpar_remLpar_lookup_witness :
    phypGetLparUUID
        (phypUUIDTable_AddLpar [⟨7, List.replicate 16 3⟩]
          (List.replicate 16 2) 3) 3 = some (List.replicate 16 2) ∧
      phypGetLparUUID
        (phypUUIDTable_RemLpar
          [⟨3, List.replicate 16 1⟩, ⟨7, List.replicate 16 3⟩] 3).1 3 =
        none :=
  ⟨(addLpar_remLpar_lookup [⟨7, List.replicate 16 3⟩] (List.replicate 16 2) 3
      (by decide)).1 (by decide),
   (addLpar_remLpar_lookup
      [⟨3, List.replicate 16 1⟩, ⟨7, List.replicate 16 3⟩]
      (List.replicate 16 2) 3 (by decide)).2⟩

/-- Claim C3.  Writing a table of representable entries and reading the
bytes back with the same entry count yields the identical ordered record
sequence, and the file holds exactly 20 bytes (4 id bytes plus 16 uuid
bytes) per entry, so a 2-entry table occupies 40 bytes. -/
theorem writeFile_readFile_roundtrip (tbl : uuidTable)
    (h : ∀ e ∈ tbl, lparWF e) :
    phypUUIDTable_ReadFile tbl.length (phypUUIDTable_WriteFile tbl) =
        some tbl ∧
      (phypUUIDTable_WriteFile tbl).length = 20 * tbl.length := by
  refine ⟨readFile_writeFile tbl h, writeFile_length tbl ?_⟩
  intro e he
  exact (h e he).2.2

/-- Claim C3, witness: the 2-entry table of the spec scenario occupies
40 bytes and reloads identically. -/
theorem writeFile_readFile_roundtrip_witness :
    phypUUIDTable_ReadFile
        ([⟨3, List.replicate 16 1⟩, ⟨7, List.replicate 16 2⟩] :
          uuidTable).length
        (phypUUIDTable_WriteFile
          [⟨3, List.replicate 16 1⟩, ⟨7, List.replicate 16 2⟩]) =
      some [⟨3, List.replicate 16 1⟩, ⟨7, List.replicate 16 2⟩] ∧
      (phypUUIDTable_WriteFile
        [⟨3, List.replicate 16 1⟩, ⟨7, List.replicate 16 2⟩]).length =
        20 * ([⟨3, List.replicate 16 1⟩, ⟨7, List.replicate 16 2⟩] :
          uuidTable).length :=
  writeFile_readFile_roundtrip
    [⟨3, List.replicate 16 1⟩, ⟨7, List.replicate 16 2⟩] (by decide)

/-- Claim C4.  With the strip flag set and exit status 0 the output is
truncated at the first newline; with a non-zero exit status the buffer is
returned unmodified whatever the flag. -/
theorem execBuffer_strip_newline (out : List Char) (exit_status : Int) :
    (exit_status = 0 →
        phypExecBuffer (some out) exit_status true =
          some (out.takeWhile (fun c => c ≠ '\n'))) ∧
      (exit_status ≠ 0 → ∀ strip,
        phypExecBuffer (some out) exit_status strip = some out) := by
  constructor
  · intro h
    simp [phypExecBuffer, h]
  · intro h strip
    simp [phypExecBuffer, h]

/-- Claim C4, witness. -/
theorem execBuffer_strip_newline_witness :
    phypExecBuffer (some ['a', 'b', '\n', 'c']) 0 true =
        some (['a', 'b', '\n', 'c'].takeWhile (fun c => c ≠ '\n')) ∧
      phypExecBuffer (some ['a', 'b', '\n', 'c']) 5 true =
        some ['a', 'b', '\n', 'c'] :=
  ⟨(execBuffer_strip_newline ['a', 'b', '\n', 'c'] 0).1 rfl,
   (execBuffer_strip_newline ['a', 'b', '\n', 'c'] 5).2 (by decide) true⟩

/-- Claim C5, counterexample.  When the close fails the exit code is fixed
to 127, but a remote command can itself report status 127: with a failed
close and a channel-reported status of 127 the returned code equals the
channel status even though the close did not succeed, so the claimed
equivalence (and the distinctness of the sentinel) is false. -/
theorem exec_exitcode_counterexample :
    ¬ ((phypExec_exitcode (-1) 127 = 127) ↔ ((-1 : Int) = 0)) := by
  decide

/-- Claim C5, amended.  The exit code equals the channel-reported status
whenever the close succeeded, and is the fixed value 127 whenever the close
failed with a hard error; 127 is not distinct from the statuses a remote
command can report. -/
theorem exec_exitcode (closeResult remoteStatus : Int) :
    (closeResult = 0 →
        phypExec_exitcode closeResult remoteStatus = remoteStatus) ∧
      (closeResult ≠ 0 → phypExec_exitcode closeResult remoteStatus = 127) := by
  constructor
  · intro h; simp [phypExec_exitcode, h]
  · intro h; simp [phypExec_exitcode, h]

/-- Claim C5, witness. -/
theorem exec_exitcode_witness :
    phypExec_exitcode 0 5 = 5 ∧ phypExec_exitcode (-1) 5 = 127 :=
  ⟨(exec_exitcode 0 5).1 rfl, (exec_exitcode (-1) 5).2 (by decide)⟩

/-- Claim C6, counterexample.  A persistent non-would-block failure opening
the inbound copy channel yields exactly the same pull outcome (-1) as an
unrelated generic failure (here a failed creat of the local file): the
file-absent case is not a distinguished outcome of pull. -/
theorem pull_notfound_counterexample :
    phypUUIDTable_Pull ⟨none, true, true, true⟩ =
        phypUUIDTable_Pull ⟨some 40, false, true, true⟩ ∧
      phypUUIDTable_Pull ⟨none, true, true, true⟩ = -1 := by
  decide

/-- Claim C6, amended.  Pull reports the open-time hard failure with the
same generic error result (-1) shared by every other pull failure; init
takes the create-fresh path exactly when pull returns -1 (which includes the
remote-file-absent case) and the load-existing path exactly when pull
returns 0. -/
theorem pull_init_branch (env : PullEnv) :
    (env.scpRecvResult = none → phypUUIDTable_Pull env = -1) ∧
      (phypUUIDTable_Init_path (phypUUIDTable_Pull env) =
          InitPath.createFresh ↔ phypUUIDTable_Pull env = -1) ∧
      (phypUUIDTable_Init_path (phypUUIDTable_Pull env) =
          InitPath.loadExisting ↔ phypUUIDTable_Pull env = 0) := by
  obtain ⟨o, c, t, cl⟩ := env
  cases o <;> cases c <;> cases t <;> cases cl <;>
    simp [phypUUIDTable_Pull, phypUUIDTable_Init_path]

/-- Claim C6, witness. -/
theorem pull_init_branch_witness :
    phypUUIDTable_Pull ⟨none, true, true, true⟩ = -1 ∧
      phypUUIDTable_Init_path (phypUUIDTable_Pull ⟨none, true, true, true⟩) =
        InitPath.createFresh :=
  ⟨(pull_init_branch ⟨none, true, true, true⟩).1 rfl,
   ((pull_init_branch ⟨none, true, true, true⟩).2.1).mpr
     ((pull_init_branch ⟨none, true, true, true⟩).1 rfl)⟩

/-- Claim C7.  phypUUIDTable_AddLpar grows the entry count by exactly one
and phypUUIDTable_RemLpar leaves it unchanged (tombstoning, never
compacting), so the table length never decreases across table operations. -/
theorem table_length_monotone (tbl : uuidTable) (uuid : List Nat) (id : Int) :
    (phypUUIDTable_AddLpar tbl uuid id).length = tbl.length + 1 ∧
      ((phypUUIDTable_RemLpar tbl id).1).length = tbl.length := by
  constructor
  · simp [phypUUIDTable_AddLpar]
  · rw [phypUUIDTable_RemLpar_fst]
    simp

/-- Claim C8.  If the channel-open primitive reports would-block exactly K
times before succeeding and every readiness wait reports ready, the open
step of phypExec performs exactly K readiness waits and then stops
waiting. -/
theorem exec_open_retries (attempt : Nat → OpenAttempt) (wait : Nat → Bool)
    (K fuel : Nat) (hK : ∀ i, i < K → attempt i = OpenAttempt.eagain)
    (hS : attempt K = OpenAttempt.ok) (hw : ∀ i, wait i = true)
    (hf : K < fuel) :
    phypExec_openLoop attempt wait fuel 0 0 = some K := by
  have h := phypExec_openLoop_count attempt wait K hK hS hw fuel 0 0
    (by omega) (by omega)
  simpa using h

/-- Claim C8, witness: two would-block reports then success gives exactly
two readiness waits. -/
theorem exec_open_retries_witness :
    phypExec_openLoop
        (fun i => if i < 2 then OpenAttempt.eagain else OpenAttempt.ok)
        (fun _ => true) 3 0 0 = some 2 :=
  exec_open_retries
    (fun i => if i < 2 then OpenAttempt.eagain else OpenAttempt.ok)
    (fun _ => true) 2 3 (by decide) (by decide) (fun _ => rfl) (by decide)

/-- Claim C9.  The push inner loop does not send each block completely: a
1024-byte block whose first write accepts 512 bytes ends the loop with only
512 bytes sent (the loop compares the accumulated count against the
decremented remainder); three successive 100-byte writes transmit the chunks
at offsets 0, 100 and 300, skipping bytes 200..299 (the pointer advances by
the accumulated count, not the last write's count); and a would-block result
exits the loop with the rest of the block unsent. -/
theorem push_inner_loop_flaws :
    pushInnerLoop [512] 0 0 1024 [] = (512, [(0, 512)]) ∧
      pushInnerLoop [100, 100, 100] 0 0 1024 [] =
        (300, [(0, 100), (100, 100), (300, 100)]) ∧
      pushInnerLoop [LIBSSH2_ERROR_EAGAIN] 0 0 1024 [] = (0, []) := by
  refine ⟨?_, ?_, ?_⟩ <;> rfl

/-- Claim C10.  phypConnectOpen rejects, before any SSH session is opened,
every URI path containing a shell metacharacter from the fixed set, and lets
every non-empty path free of them reach the SSH session step. -/
theorem connectOpen_path_filter (p : List Char) :
    ((∃ c ∈ p, c ∈ specialChars) →
        phypConnectOpen_pathCheck (some p) = OpenOutcome.invalidPath) ∧
      (p ≠ [] → (∀ c ∈ p, c ∉ specialChars) →
        phypConnectOpen_pathCheck (some p) = OpenOutcome.sshSessionAttempt) := by
  constructor
  · rintro ⟨c, hc, hcs⟩
    have hne : p.length ≠ 0 := by
      cases p with
      | nil => simp at hc
      | cons a as => simp
    have hany : p.any (fun c => specialChars.contains c) = true := by
      rw [List.any_eq_true]
      exact ⟨c, hc, List.elem_eq_true_of_mem hcs⟩
    have hcsp : contains_specialcharacters p = true := by
      unfold contains_specialcharacters
      rw [if_neg hne]
      exact hany
    unfold phypConnectOpen_pathCheck
    simp [hcsp]
  · intro hne hnone
    have hlen : p.length ≠ 0 := by
      cases p with
      | nil => exact absurd rfl hne
      | cons a as => simp
    have hany : p.any (fun c => specialChars.contains c) = false := by
      rw [List.any_eq_false]
      intro c hc hcon
      exact hnone c hc (List.mem_of_elem_eq_true hcon)
    have hcsp : contains_specialcharacters p = false := by
      unfold contains_specialcharacters
      rw [if_neg hlen]
      exact hany
    unfold phypConnectOpen_pathCheck
    simp [hcsp]

/-- Claim C10, witness: a path with a metacharacter is rejected and a clean
path reaches the SSH step. -/
theorem connectOpen_path_filter_witness :
    phypConnectOpen_pathCheck (some ['a', '$', 'b']) =
        OpenOutcome.invalidPath ∧
      phypConnectOpen_pathCheck (some ['v', 'm', '1']) =
        OpenOutcome.sshSessionAttempt :=
  ⟨(connectOpen_path_filter ['a', '$', 'b']).1 ⟨'$', by decide, by decide⟩,
   (connectOpen_path_filter ['v', 'm', '1']).2 (by decide) (by decide)⟩

end Phyp
